import Mathlib

/-!
# Verification of the CSQV 2D Merkle R-tree (Point2D / Node2D / Query2D)

A shallow embedding of the authenticated 2D range-query index:
the bulk loader (`build_2d_tree`), the query engine (`range_query_2d`),
the verifier (`verify_2d`) and the combined driver (`query_and_verify_2d`),
together with theorems settling the specification's claims about them.

Machine integers of the source (`uint32_t`, `int32_t`) are modelled as
`Nat` / `Int` with explicit reduction modulo `2^32` at the serialization
boundary, which is where the source's widths matter.

`Geometry.hpp`, `Hash.hpp` and `Buffer.hpp` are not part of the sources;
the definitions taken from them are modelled from the spec and are marked
`Modelled from the spec:` in their doc comments.
-/

namespace CSQV

/-- Modelled from the spec (Geometry.hpp is absent from the sources):
a 2D point of the integer plane, source type `Point { int32_t x, y; }`. -/
structure Point where
  x : Int
  y : Int
deriving DecidableEq, Repr

/-- Modelled from the spec (Geometry.hpp is absent from the sources):
lexicographic strict order on `(x, y)`, the source's `Point::operator<`
(the spec: "Ordering is defined by (a) lexicographic `(x, y)`", the
`Z_INDEX` Morton switch being off). -/
def Point.ltP (a b : Point) : Prop :=
  a.x < b.x ∨ (a.x = b.x ∧ a.y < b.y)

instance (a b : Point) : Decidable (Point.ltP a b) := by
  unfold Point.ltP; infer_instance

/-- Modelled from the spec (Geometry.hpp is absent from the sources):
a closed axis-aligned rectangle `(lx, ly, ux, uy)`. -/
structure Rectangle where
  lx : Int
  ly : Int
  ux : Int
  uy : Int
deriving DecidableEq, Repr

/-- Modelled from the spec (Geometry.hpp is absent from the sources):
the distinguished empty-rectangle sentinel, the identity of `enlarge`,
realized in the customary way with extreme `int32_t` coordinates. -/
def EMPTY_RECT : Rectangle :=
  ⟨2 ^ 31 - 1, 2 ^ 31 - 1, -(2 ^ 31), -(2 ^ 31)⟩

/-- Modelled from the spec (Geometry.hpp is absent from the sources):
MBR enlargement of a rectangle by a rectangle. -/
def enlarge (r s : Rectangle) : Rectangle :=
  ⟨min r.lx s.lx, min r.ly s.ly, max r.ux s.ux, max r.uy s.uy⟩

/-- Modelled from the spec (Geometry.hpp is absent from the sources):
MBR enlargement of a rectangle by a point. -/
def enlargeP (r : Rectangle) (p : Point) : Rectangle :=
  ⟨min r.lx p.x, min r.ly p.y, max r.ux p.x, max r.uy p.y⟩

/-- Modelled from the spec (Geometry.hpp is absent from the sources):
"Two rectangles intersect iff their projections on each axis overlap
(closed intervals)". -/
def intersect (a b : Rectangle) : Bool :=
  decide (a.lx ≤ b.ux ∧ b.lx ≤ a.ux ∧ a.ly ≤ b.uy ∧ b.ly ≤ a.uy)

/-- Modelled from the spec (Buffer.hpp is absent from the sources):
the hash buffer is an append-only byte sink; a buffer is its byte list,
each element one byte value. -/
abbrev Buffer := List Nat

/-- Modelled from the spec (Buffer.hpp is absent from the sources):
append a `u32` in little-endian order, width exactly 4 bytes. -/
def putU32 (buf : Buffer) (n : Nat) : Buffer :=
  buf ++ [n % 256, n / 256 % 256, n / 256 ^ 2 % 256, n / 256 ^ 3 % 256]

/-- Modelled from the spec (Buffer.hpp is absent from the sources):
append an `i32` in little-endian two's-complement form: the bytes of the
value reduced modulo `2^32`. -/
def putI32 (buf : Buffer) (i : Int) : Buffer :=
  putU32 buf (i % 2 ^ 32).toNat

/-- Modelled from the spec (Buffer.hpp is absent from the sources):
the raw-bytes appender copies an externally provided byte slice verbatim. -/
def put_bytes (buf : Buffer) (bs : List Nat) : Buffer :=
  buf ++ bs

/-- Modelled from the spec (Hash.hpp is absent from the sources): SHA-256.
The spec's digest properties (tamper detection in particular) hold for
SHA-256 exactly under its collision-resistance idealization, so the model
uses an injective digest function of the byte string — the byte string
itself.  Every theorem below uses only that this function is deterministic
and injective, except where any function at all would do. -/
def sha256 (buf : Buffer) : List Nat := buf

/-- The zero-initialized `hash_t{}` of the source (32 zero bytes). -/
def hash_zero : List Nat := List.replicate 32 0

/-- `Point2D`: a `u32` identifier together with a 2D location
(`src/CSQV/Point2D.hpp`). -/
structure Point2D where
  id : Nat
  loc : Point
deriving DecidableEq, Repr

instance : Inhabited Point2D := ⟨⟨0, ⟨0, 0⟩⟩⟩

/-- `contains` of `src/CSQV/Point2D.hpp`: the point is inside the closed
query rectangle. -/
def contains (p : Point2D) (q : Rectangle) : Bool :=
  decide (q.lx ≤ p.loc.x ∧ p.loc.x ≤ q.ux ∧ q.ly ≤ p.loc.y ∧ p.loc.y ≤ q.uy)

/-- `put_point2d` of `src/CSQV/Point2D.hpp`:
`buf.put(p.id).put(p.loc.x).put(p.loc.y)`. -/
def put_point2d (buf : Buffer) (p : Point2D) : Buffer :=
  putI32 (putI32 (putU32 buf p.id) p.loc.x) p.loc.y

/-- `compute_mbr` of `src/CSQV/Point2D.hpp`: the enlarge-fold of the
points' locations, `EMPTY_RECT` on the empty list. -/
def compute_mbr (points : List Point2D) : Rectangle :=
  if points = [] then EMPTY_RECT
  else points.foldl (fun r p => enlargeP r p.loc) EMPTY_RECT

/-- `Point2D::operator<` of `src/CSQV/Point2D.hpp` with `Z_INDEX` off:
`loc < other.loc`. -/
def Point2D.ltP (a b : Point2D) : Prop := Point.ltP a.loc b.loc

instance (a b : Point2D) : Decidable (Point2D.ltP a b) := by
  unfold Point2D.ltP; infer_instance

/-- The non-strict comparator induced by `Point2D::operator<`:
`a` may precede `b` exactly when `¬(b < a)`. -/
def pointLE (a b : Point2D) : Prop := ¬ Point2D.ltP b a

instance (a b : Point2D) : Decidable (pointLE a b) := by
  unfold pointLE; infer_instance

/-- The `std::sort(points.begin(), points.end())` call of `build_2d_tree`
(`src/CSQV/Node2D.cpp`).  `std::sort` guarantees a result sorted by the
comparator; between elements the comparator does not order (equal
locations) the order is implementation-defined, modelled here by a
deterministic stable sort with the same comparator. -/
def sortPoints (points : List Point2D) : List Point2D :=
  List.insertionSort pointLE points

/-- A node of the 2D MR-tree (`src/CSQV/Node2D.hpp`): a leaf owns points,
an internal node owns children; both carry an MBR and a digest. -/
inductive Node2D where
  | leaf (rect : Rectangle) (hash : List Nat) (points : List Point2D)
  | internal (rect : Rectangle) (hash : List Nat) (children : List Node2D)

instance : Inhabited Node2D := ⟨.leaf EMPTY_RECT hash_zero []⟩

/-- `Node2D::getRect`. -/
def Node2D.getRect : Node2D → Rectangle
  | .leaf r _ _ => r
  | .internal r _ _ => r

/-- `Node2D::getHash`. -/
def Node2D.getHash : Node2D → List Nat
  | .leaf _ h _ => h
  | .internal _ h _ => h

/-- One entry of an internal node's hash buffer
(`src/CSQV/Node2D.cpp`, `make_internal_2d`; `src/CSQV/Query2D.cpp`,
`verify_2d` container case):
`buf.put(lx).put(ly).put(ux).put(uy).put_bytes(hash)`. -/
def put_entry (buf : Buffer) (r : Rectangle) (h : List Nat) : Buffer :=
  put_bytes (putI32 (putI32 (putI32 (putI32 buf r.lx) r.ly) r.ux) r.uy) h

/-- `make_leaf_2d` of `src/CSQV/Node2D.cpp`: MBR of the points, digest of
the concatenated point serializations, the points themselves. -/
def make_leaf_2d (points : List Point2D) : Node2D :=
  if points = [] then .leaf EMPTY_RECT hash_zero []
  else
    .leaf (compute_mbr points)
      (sha256 (points.foldl put_point2d []))
      points

/-- `make_internal_2d` of `src/CSQV/Node2D.cpp`: MBR enlarged over the
children, digest of the concatenated `(rect, hash)` entries. -/
def make_internal_2d (children : List Node2D) : Node2D :=
  match children with
  | [] => .internal EMPTY_RECT hash_zero []
  | _ =>
    .internal (children.foldl (fun r c => enlarge r c.getRect) EMPTY_RECT)
      (sha256 (children.foldl (fun buf c => put_entry buf c.getRect c.getHash) []))
      children

/-- The chunking loop of `build_2d_tree`
(`for (i = 0; i < size; i += capacity)` slicing `[i, min(size, i+capacity))`),
written with `fuel` recursion: the loop advances by `capacity ≥ 1` per
iteration, so `fuel = l.length` (see `chunks`) always suffices there. -/
def chunksAux (capacity : Nat) : Nat → List α → List (List α)
  | _, [] => []
  | 0, _ => []
  | fuel + 1, l => l.take capacity :: chunksAux capacity fuel (l.drop capacity)

/-- Partition a list into contiguous runs of `capacity` elements, the last
run possibly short — the chunking loop of `build_2d_tree`. -/
def chunks (capacity : Nat) (l : List α) : List (List α) :=
  chunksAux capacity l.length l

/-- The outcome of `build_2d_tree`: the source either returns a
(possibly null) root pointer or loops forever; `diverges` marks the
latter. -/
inductive BuildResult where
  | diverges
  | ret (root : Option Node2D)

/-- The `while (current_level.size() > 1)` loop of `build_2d_tree`:
repeatedly chunk the level and build one internal node per chunk.
Each iteration with `capacity ≥ 2` strictly shrinks a level of size ≥ 2,
so `fuel = level.length` suffices then; with `capacity ≤ 1` a level of
size ≥ 2 never shrinks and the source loop never exits, which surfaces
here as fuel exhaustion (`none`). -/
def buildUpAux (capacity : Nat) : Nat → List Node2D → Option Node2D
  | _, [] => none
  | _, [n] => some n
  | 0, _ => none
  | fuel + 1, level =>
      buildUpAux capacity fuel ((chunks capacity level).map make_internal_2d)

/-- `build_2d_tree` of `src/CSQV/Node2D.cpp`: sort, pack into leaves,
then build internal levels bottom-up.  An empty input returns a null
root (`ret none`).  The source performs no capacity validation: with
`capacity = 0` its leaf-chunking loop (`i += 0`) never advances, and with
`capacity = 1` the level loop never shrinks a level of two or more nodes;
both nonterminating executions are modelled as `diverges`. -/
def build_2d_tree (points : List Point2D) (capacity : Nat) : BuildResult :=
  if points = [] then .ret none
  else if capacity = 0 then .diverges
  else
    let sorted := sortPoints points
    let leaves := (chunks capacity sorted).map make_leaf_2d
    match buildUpAux capacity leaves.length leaves with
    | some root => .ret (some root)
    | none => .diverges

mutual
/-- `height_2d_tree` of `src/CSQV/Node2D.cpp` on a non-null node:
1 for a leaf, 1 + the maximum child height for an internal node. -/
def height_node : Node2D → Nat
  | .leaf _ _ _ => 1
  | .internal _ _ cs => height_children cs + 1
/-- The `max_height` loop of `height_2d_tree` over a child list. -/
def height_children : List Node2D → Nat
  | [] => 0
  | c :: cs => Nat.max (height_node c) (height_children cs)
end

/-- `height_2d_tree` of `src/CSQV/Node2D.cpp`: 0 for a null root. -/
def height_2d_tree : Option Node2D → Nat
  | none => 0
  | some n => height_node n

/-- A 2D verification object (`src/CSQV/Query2D.hpp`): a reached leaf's
full point sequence, a pruned subtree's `(rect, hash)` witness, or an
ordered container of child VOs. -/
inductive VObject2D where
  | vleaf (points : List Point2D)
  | vpruned (rect : Rectangle) (hash : List Nat)
  | vcontainer (children : List VObject2D)

instance : Inhabited VObject2D := ⟨.vleaf []⟩

/-- `QueryStats2D` of `src/CSQV/Query2D.hpp`, its four counters.  The two
elapsed-time fields are wall-clock measurements and are not modelled. -/
structure QueryStats2D where
  nodes_visited : Nat
  nodes_pruned : Nat
  points_examined : Nat
  points_returned : Nat
deriving DecidableEq, Repr

/-- The all-zero statistics of the `QueryStats2D` default constructor. -/
def initStats : QueryStats2D := ⟨0, 0, 0, 0⟩

mutual
/-- `range_query_2d` of `src/CSQV/Query2D.cpp` on a non-null node:
a leaf yields its full point list; an internal node whose MBR misses the
query is pruned to its `(rect, hash)` witness; otherwise every child is
visited in order.  The statistics collector is threaded through
explicitly (the source mutates it through a pointer). -/
def range_query_node (query : Rectangle) :
    Node2D → QueryStats2D → VObject2D × QueryStats2D
  | .leaf _ _ pts, stats =>
      let stats := { stats with nodes_visited := stats.nodes_visited + 1 }
      (.vleaf pts,
        { stats with points_examined := stats.points_examined + pts.length })
  | .internal rect hash cs, stats =>
      let stats := { stats with nodes_visited := stats.nodes_visited + 1 }
      if intersect rect query then
        let r := range_query_children query cs stats
        (.vcontainer r.1, r.2)
      else
        (.vpruned rect hash,
          { stats with nodes_pruned := stats.nodes_pruned + 1 })
/-- The child loop of `range_query_2d`: query each child in order,
collecting the child VOs (every recursive call on a non-null child
returns a non-null VO, so the null filter of `VContainer2D::append`
never drops anything). -/
def range_query_children (query : Rectangle) :
    List Node2D → QueryStats2D → List VObject2D × QueryStats2D
  | [], stats => ([], stats)
  | c :: cs, stats =>
      let r1 := range_query_node query c stats
      let r2 := range_query_children query cs r1.2
      (r1.1 :: r2.1, r2.2)
end

/-- `range_query_2d` of `src/CSQV/Query2D.cpp`: a null root yields a null
VO, before any statistics update. -/
def range_query_2d (root : Option Node2D) (query : Rectangle)
    (stats : QueryStats2D) : Option VObject2D × QueryStats2D :=
  match root with
  | none => (none, stats)
  | some n =>
      let r := range_query_node query n stats
      (some r.1, r.2)

/-- `VResult2D` of `src/CSQV/Query2D.hpp`: the reconstructed MBR and
digest together with the matching points. -/
structure VResult2D where
  rect : Rectangle
  hash : List Nat
  points : List Point2D
deriving Repr

/-- One iteration of the leaf loop of `verify_2d`
(`src/CSQV/Query2D.cpp`, `V2D_LEAF` case): enlarge the MBR, serialize the
point, and collect it when it matches the query, counting it in
`points_returned`. -/
def verify_leaf_step (query : Rectangle)
    (acc : Rectangle × Buffer × List Point2D × QueryStats2D) (p : Point2D) :
    Rectangle × Buffer × List Point2D × QueryStats2D :=
  let mbr := enlargeP acc.1 p.loc
  let buf := put_point2d acc.2.1 p
  if contains p query then
    (mbr, buf, acc.2.2.1 ++ [p],
      { acc.2.2.2 with points_returned := acc.2.2.2.points_returned + 1 })
  else
    (mbr, buf, acc.2.2.1, acc.2.2.2)

mutual
/-- `verify_2d` of `src/CSQV/Query2D.cpp` on a non-null VO: a leaf is
re-serialized and re-hashed in full while its points are filtered by the
query; a pruned witness is returned unchanged; a container folds its
children's `(rect, hash)` pairs into a recomputed entry buffer and
concatenates their matching points in order. -/
def verify_node (query : Rectangle) :
    VObject2D → QueryStats2D → VResult2D × QueryStats2D
  | .vleaf all_points, stats =>
      let r := all_points.foldl (verify_leaf_step query)
        (EMPTY_RECT, ([] : Buffer), ([] : List Point2D), stats)
      (⟨r.1, sha256 r.2.1, r.2.2.1⟩, r.2.2.2)
  | .vpruned rect hash, stats => (⟨rect, hash, []⟩, stats)
  | .vcontainer children, stats =>
      let r := verify_children query children EMPTY_RECT [] [] stats
      (⟨r.1, sha256 r.2.1, r.2.2.1⟩, r.2.2.2)
/-- The child loop of the `V2D_CONTAINER` case of `verify_2d`, with the
combined MBR, the entry buffer and the matching points as explicit
left-to-right accumulators, exactly like the source loop's locals. -/
def verify_children (query : Rectangle) :
    List VObject2D → Rectangle → Buffer → List Point2D → QueryStats2D →
    Rectangle × Buffer × List Point2D × QueryStats2D
  | [], mbr, buf, pts, stats => (mbr, buf, pts, stats)
  | c :: cs, mbr, buf, pts, stats =>
      let r := verify_node query c stats
      verify_children query cs (enlarge mbr r.1.rect)
        (put_entry buf r.1.rect r.1.hash) (pts ++ r.1.points) r.2
end

/-- `verify_2d` of `src/CSQV/Query2D.cpp`: a null VO yields a null
result. -/
def verify_2d (vo : Option VObject2D) (query : Rectangle)
    (stats : QueryStats2D) : Option VResult2D × QueryStats2D :=
  match vo with
  | none => (none, stats)
  | some v =>
      let r := verify_node query v stats
      (some r.1, r.2)

/-- `query_and_verify_2d` of `src/CSQV/Query2D.cpp`: zero the four
counters, query, then verify the resulting VO. -/
def query_and_verify_2d (root : Option Node2D) (query : Rectangle)
    (stats : QueryStats2D) : Option VResult2D × QueryStats2D :=
  let stats := { stats with nodes_visited := 0, nodes_pruned := 0,
                            points_examined := 0, points_returned := 0 }
  let r := range_query_2d root query stats
  verify_2d r.1 query r.2

/-- The spec's little-endian `u32` byte layout, defined from the spec's
words for the refinement claim about leaf serialization. -/
def u32le (n : Nat) : List Nat :=
  [n % 256, n / 256 % 256, n / 256 ^ 2 % 256, n / 256 ^ 3 % 256]

/-- The spec's little-endian two's-complement `i32` byte layout, defined
from the spec's words for the refinement claim about leaf serialization. -/
def i32le (i : Int) : List Nat := u32le (i % 2 ^ 32).toNat

/-- The spec's per-point layout `u32(id) ‖ i32(x) ‖ i32(y)`, defined from
the spec's words for the refinement claim about leaf serialization. -/
def spec_point_bytes (p : Point2D) : List Nat :=
  u32le p.id ++ i32le p.loc.x ++ i32le p.loc.y

/-- The spec's leaf serialization: each point's bytes concatenated in
sequence order, with no framing or separators; defined from the spec's
words for the refinement claim about leaf serialization. -/
def serialize_points (points : List Point2D) : List Nat :=
  (points.map spec_point_bytes).flatten

/-- The byte serialization of one point as the source writes it into the
leaf hash buffer. -/
def point_bytes (p : Point2D) : List Nat := put_point2d [] p

/-- The bytes of one internal-node hash-buffer entry as the source writes
them: the child's rectangle, then its digest verbatim. -/
def entry_bytes (r : Rectangle) (h : List Nat) : List Nat :=
  put_entry [] r h

mutual
/-- The in-order point sequence stored beneath a node (the in-order
traversal of the tree). -/
def node_points : Node2D → List Point2D
  | .leaf _ _ pts => pts
  | .internal _ _ cs => children_points cs
/-- The in-order point sequence stored beneath a child list. -/
def children_points : List Node2D → List Point2D
  | [] => []
  | c :: cs => node_points c ++ children_points cs
end

/-- The nodes the bulk loader actually constructs: leaves and internal
nodes made by `make_leaf_2d` / `make_internal_2d` from non-empty
sequences, children recursively of the same shape. -/
inductive WF : Node2D → Prop where
  | leaf (points : List Point2D) (hne : points ≠ []) :
      WF (make_leaf_2d points)
  | internal (children : List Node2D) (hne : children ≠ [])
      (hc : ∀ c ∈ children, WF c) :
      WF (make_internal_2d children)

/-- Little-endian value of a byte list. -/
def bytesToNat (bs : List Nat) : Nat :=
  bs.foldr (fun b acc => b + 256 * acc) 0

/-- Reading 4 little-endian bytes back as an `int32_t` two's-complement
value. -/
def i32_of_bytes (bs : List Nat) : Int :=
  let u := bytesToNat bs
  if u < 2 ^ 31 then (u : Int) else (u : Int) - 2 ^ 32

/-- Reading a 12-byte serialization back as a `Point2D`
(`u32 id ‖ i32 x ‖ i32 y`, little-endian). -/
def point_of_bytes (bs : List Nat) : Point2D :=
  ⟨bytesToNat (bs.take 4),
   ⟨i32_of_bytes ((bs.drop 4).take 4), i32_of_bytes (bs.drop 8)⟩⟩

/-- The point obtained by overwriting byte `j` of `p`'s 12-byte
serialization with the byte value `v`. -/
def mutate_point (p : Point2D) (j : Nat) (v : Nat) : Point2D :=
  point_of_bytes ((point_bytes p).set j v)

/-- The point list of the `VO_Leaf` reached from `vo` by following the
given child-index path through containers, if the path lands on a leaf. -/
def leaf_at : List Nat → VObject2D → Option (List Point2D)
  | [], .vleaf pts => some pts
  | k :: path, .vcontainer kids =>
      match kids.get? k with
      | some c => leaf_at path c
      | none => none
  | _, _ => none

/-- The VO with byte `j` of point `i` of the `VO_Leaf` at the given path
overwritten by the byte value `v`; everything else unchanged. -/
def mutate_vo : List Nat → VObject2D → Nat → Nat → Nat → VObject2D
  | [], .vleaf pts, i, j, v =>
      .vleaf (pts.set i (mutate_point (pts.getD i default) j v))
  | k :: path, .vcontainer kids, i, j, v =>
      .vcontainer (kids.set k (mutate_vo path (kids.getD k default) i j v))
  | _, vo, _, _, _ => vo

/-- The verification result of a VO, evaluated at the all-zero statistics
collector (the result value does not depend on the collector). -/
def vres (query : Rectangle) (vo : VObject2D) : VResult2D :=
  (verify_node query vo initStats).1

/-- The root hash a build run produced, `[]` when no tree came back. -/
def build_root_hash (points : List Point2D) (capacity : Nat) : List Nat :=
  match build_2d_tree points capacity with
  | .ret (some r) => r.getHash
  | _ => []

/-- A point lies inside a closed rectangle. -/
def inRect (p : Point) (r : Rectangle) : Prop :=
  r.lx ≤ p.x ∧ p.x ≤ r.ux ∧ r.ly ≤ p.y ∧ p.y ≤ r.uy

/-- `r` is contained in `s` coordinatewise. -/
def subRect (r s : Rectangle) : Prop :=
  s.lx ≤ r.lx ∧ s.ly ≤ r.ly ∧ r.ux ≤ s.ux ∧ r.uy ≤ s.uy

/-- The spec's scenario S1 dataset
`{(0,0,0), (1,10,10), (2,20,20), (3,30,30)}`. -/
def sampleData : List Point2D :=
  [⟨0, ⟨0, 0⟩⟩, ⟨1, ⟨10, 10⟩⟩, ⟨2, ⟨20, 20⟩⟩, ⟨3, ⟨30, 30⟩⟩]

/-- The spec's scenario S1 query rectangle `(5, 5, 25, 25)`. -/
def sampleQuery : Rectangle := ⟨5, 5, 25, 25⟩

/-- The root the bulk loader builds from the S1 dataset at capacity 2. -/
def sampleRoot : Node2D :=
  match build_2d_tree sampleData 2 with
  | .ret (some r) => r
  | _ => default

/-! ## Serialization plumbing -/

theorem put_point2d_eq (buf : Buffer) (p : Point2D) :
    put_point2d buf p = buf ++ point_bytes p := by
  simp [put_point2d, point_bytes, putI32, putU32]

theorem point_bytes_spec (p : Point2D) : point_bytes p = spec_point_bytes p := by
  simp [point_bytes, put_point2d, putI32, putU32, spec_point_bytes, u32le, i32le]

theorem point_bytes_length (p : Point2D) : (point_bytes p).length = 12 := by
  simp [point_bytes, put_point2d, putI32, putU32]

theorem foldl_put_point2d :
    ∀ (pts : List Point2D) (buf : Buffer),
      pts.foldl put_point2d buf = buf ++ (pts.map point_bytes).flatten
  | [], buf => by simp
  | p :: pts, buf => by
      simp [foldl_put_point2d pts, put_point2d_eq]

theorem put_entry_eq (buf : Buffer) (r : Rectangle) (h : List Nat) :
    put_entry buf r h = buf ++ entry_bytes r h := by
  simp [put_entry, entry_bytes, put_bytes, putI32, putU32]

theorem entry_bytes_length (r : Rectangle) (h : List Nat) :
    (entry_bytes r h).length = 16 + h.length := by
  simp [entry_bytes, put_entry, put_bytes, putI32, putU32]
  omega

theorem entry_bytes_inj {r r' : Rectangle} {h h' : List Nat}
    (heq : entry_bytes r h = entry_bytes r' h') : h = h' := by
  have h1 : entry_bytes r h = (entry_bytes r []) ++ h := by
    simp [entry_bytes, put_entry, put_bytes]
  have h2 : entry_bytes r' h' = (entry_bytes r' []) ++ h' := by
    simp [entry_bytes, put_entry, put_bytes]
  rw [h1, h2] at heq
  have hl : (entry_bytes r ([] : List Nat)).length =
      (entry_bytes r' ([] : List Nat)).length := by
    simp [entry_bytes_length]
  exact (List.append_inj heq hl).2

/-- Flattening is injective on block lists whose corresponding blocks
have equal lengths. -/
theorem flatten_inj_of_forall₂ {α : Type} :
    ∀ {a b : List (List α)},
      List.Forall₂ (fun x y => x.length = y.length) a b →
      a.flatten = b.flatten → a = b := by
  intro a
  induction a with
  | nil => intro b h _; cases h; rfl
  | cons x xs ih =>
      intro b h hf
      cases h with
      | cons hxy hrest =>
          rename_i y ys
          simp only [List.flatten_cons] at hf
          obtain ⟨h1, h2⟩ := List.append_inj hf hxy
          rw [h1, ih hrest h2]

/-! ## Chunking -/

theorem chunksAux_flatten {α : Type} (cap : Nat) (hcap : 1 ≤ cap) :
    ∀ (fuel : Nat) (l : List α), l.length ≤ fuel →
      (chunksAux cap fuel l).flatten = l := by
  intro fuel
  induction fuel with
  | zero =>
      intro l hl
      have : l = [] := List.length_eq_zero.mp (Nat.le_zero.mp hl)
      subst this; rfl
  | succ f ih =>
      intro l hl
      match l with
      | [] => rfl
      | a :: t =>
          have hdrop : ((a :: t).drop cap).length ≤ f := by
            simp only [List.length_drop, List.length_cons] at *
            omega
          simp only [chunksAux, List.flatten_cons, ih _ hdrop,
            List.take_append_drop]

theorem chunksAux_mem_ne_nil {α : Type} (cap : Nat) (hcap : 1 ≤ cap) :
    ∀ (fuel : Nat) (l : List α) (c : List α),
      c ∈ chunksAux cap fuel l → c ≠ [] := by
  intro fuel
  induction fuel with
  | zero => intro l c hc; cases l <;> simp [chunksAux] at hc
  | succ f ih =>
      intro l c hc
      match l with
      | [] => simp [chunksAux] at hc
      | a :: t =>
          simp only [chunksAux, List.mem_cons] at hc
          rcases hc with h | h
          · subst h
            intro hnil
            have hlen := congrArg List.length hnil
            simp only [List.length_take, List.length_cons, List.length_nil,
              Nat.min_def] at hlen
            split at hlen <;> omega
          · exact ih _ _ h

theorem chunksAux_mem_subset {α : Type} (cap : Nat) :
    ∀ (fuel : Nat) (l : List α) (c : List α),
      c ∈ chunksAux cap fuel l → ∀ x ∈ c, x ∈ l := by
  intro fuel
  induction fuel with
  | zero => intro l c hc; cases l <;> simp [chunksAux] at hc
  | succ f ih =>
      intro l c hc x hx
      match l with
      | [] => simp [chunksAux] at hc
      | a :: t =>
          simp only [chunksAux, List.mem_cons] at hc
          rcases hc with h | h
          · exact List.take_subset _ _ (h ▸ hx)
          · exact List.drop_subset _ _ (ih _ _ h x hx)

theorem chunksAux_ne_nil {α : Type} (cap : Nat) :
    ∀ (fuel : Nat) (l : List α), l ≠ [] → l.length ≤ fuel →
      chunksAux cap fuel l ≠ [] := by
  intro fuel l hne hl
  match fuel, l with
  | 0, l => exact absurd (List.length_eq_zero.mp (Nat.le_zero.mp hl)) hne
  | f + 1, [] => exact absurd rfl hne
  | f + 1, a :: t => simp [chunksAux]

theorem chunksAux_length (cap : Nat) (hcap : 1 ≤ cap) {α : Type} :
    ∀ (fuel : Nat) (l : List α), l ≠ [] → l.length ≤ fuel →
      (chunksAux cap fuel l).length = (l.length + cap - 1) / cap := by
  intro fuel
  induction fuel with
  | zero =>
      intro l hne hl
      exact absurd (List.length_eq_zero.mp (Nat.le_zero.mp hl)) hne
  | succ f ih =>
      intro l hne hl
      match l with
      | [] => exact absurd rfl hne
      | a :: t =>
          simp only [List.length_cons] at hl
          by_cases hle : t.length + 1 ≤ cap
          · have hdrop : (a :: t).drop cap = [] := by
              rw [List.drop_eq_nil_iff, List.length_cons]
              exact hle
            have h0 : ∀ g, chunksAux cap g ([] : List α) = [] := by
              intro g; cases g <;> rfl
            simp only [chunksAux, hdrop, h0, List.length_cons,
              List.length_nil]
            symm
            exact Nat.div_eq_of_lt_le (by omega) (by omega)
          · push_neg at hle
            have hdne : (a :: t).drop cap ≠ [] := by
              rw [ne_eq, List.drop_eq_nil_iff, List.length_cons]
              omega
            have hdl : ((a :: t).drop cap).length ≤ f := by
              simp only [List.length_drop, List.length_cons]
              omega
            simp only [chunksAux, List.length_cons, ih _ hdne hdl,
              List.length_drop, List.length_cons]
            have h1 : t.length + 1 - cap + cap - 1 = t.length := by omega
            have h2 : t.length + 1 + cap - 1 = t.length + cap := by omega
            rw [h1, h2, Nat.add_div_right _ (by omega : 0 < cap)]

theorem chunks_flatten {α : Type} {cap : Nat} (hcap : 1 ≤ cap)
    (l : List α) : (chunks cap l).flatten = l :=
  chunksAux_flatten cap hcap _ l (le_refl _)

theorem chunks_mem_ne_nil {α : Type} {cap : Nat} (hcap : 1 ≤ cap)
    {l c : List α} (hc : c ∈ chunks cap l) : c ≠ [] :=
  chunksAux_mem_ne_nil cap hcap _ l c hc

theorem chunks_mem_subset {α : Type} {cap : Nat} {l c : List α}
    (hc : c ∈ chunks cap l) : ∀ x ∈ c, x ∈ l :=
  chunksAux_mem_subset cap _ l c hc

theorem chunks_ne_nil {α : Type} {cap : Nat} {l : List α} (hne : l ≠ []) :
    chunks cap l ≠ [] :=
  chunksAux_ne_nil cap _ l hne (le_refl _)

theorem chunks_length {α : Type} {cap : Nat} (hcap : 1 ≤ cap)
    {l : List α} (hne : l ≠ []) :
    (chunks cap l).length = (l.length + cap - 1) / cap :=
  chunksAux_length cap hcap _ l hne (le_refl _)

/-! ## Node constructors, in-order points, heights -/

theorem make_leaf_2d_eq {points : List Point2D} (hne : points ≠ []) :
    make_leaf_2d points =
      .leaf (compute_mbr points)
        (sha256 (points.foldl put_point2d [])) points := by
  simp [make_leaf_2d, hne]

theorem make_internal_2d_eq {children : List Node2D} (hne : children ≠ []) :
    make_internal_2d children =
      .internal (children.foldl (fun r c => enlarge r c.getRect) EMPTY_RECT)
        (sha256 (children.foldl
          (fun buf c => put_entry buf c.getRect c.getHash) []))
        children := by
  match children with
  | [] => exact absurd rfl hne
  | c :: cs => rfl

theorem node_points_make_leaf {points : List Point2D} (hne : points ≠ []) :
    node_points (make_leaf_2d points) = points := by
  rw [make_leaf_2d_eq hne, node_points]

theorem node_points_make_internal {children : List Node2D}
    (hne : children ≠ []) :
    node_points (make_internal_2d children) = children_points children := by
  rw [make_internal_2d_eq hne, node_points]

theorem children_points_append (l₁ l₂ : List Node2D) :
    children_points (l₁ ++ l₂) = children_points l₁ ++ children_points l₂ := by
  induction l₁ with
  | nil => simp [children_points]
  | cons c cs ih => simp [children_points, ih]

theorem children_points_flatten :
    ∀ L : List (List Node2D),
      children_points L.flatten = (L.map children_points).flatten
  | [] => rfl
  | c :: L => by
      simp [children_points_append, children_points_flatten L]

theorem children_points_map_leaf :
    ∀ L : List (List Point2D), (∀ c ∈ L, c ≠ []) →
      children_points (L.map make_leaf_2d) = L.flatten
  | [], _ => rfl
  | c :: L, h => by
      simp only [List.map_cons, children_points, List.flatten_cons]
      rw [node_points_make_leaf (h c (by simp)),
        children_points_map_leaf L (fun x hx => h x (by simp [hx]))]

theorem children_points_map_internal :
    ∀ L : List (List Node2D), (∀ c ∈ L, c ≠ []) →
      children_points (L.map make_internal_2d) = children_points L.flatten
  | [], _ => rfl
  | c :: L, h => by
      simp only [List.map_cons, children_points, List.flatten_cons,
        children_points_append]
      rw [node_points_make_internal (h c (by simp)),
        children_points_map_internal L (fun x hx => h x (by simp [hx]))]

theorem height_node_make_leaf (points : List Point2D) :
    height_node (make_leaf_2d points) = 1 := by
  by_cases h : points = []
  · subst h; rfl
  · rw [make_leaf_2d_eq h, height_node]

theorem height_children_const {h : Nat} :
    ∀ {cs : List Node2D}, cs ≠ [] → (∀ c ∈ cs, height_node c = h) →
      height_children cs = h := by
  intro cs
  induction cs with
  | nil => intro hne; exact absurd rfl hne
  | cons c cs ih =>
      intro _ hall
      match cs with
      | [] =>
          simp [height_children, hall c (by simp)]
      | d :: ds =>
          rw [height_children, hall c (by simp),
            ih (by simp) (fun x hx => hall x (by simp [hx]))]
          simp

theorem height_node_make_internal {children : List Node2D} {h : Nat}
    (hne : children ≠ []) (hall : ∀ c ∈ children, height_node c = h) :
    height_node (make_internal_2d children) = h + 1 := by
  rw [make_internal_2d_eq hne, height_node, height_children_const hne hall]

/-! ## The bulk loader -/

theorem WF_make_internal {children : List Node2D} (hne : children ≠ [])
    (hc : ∀ c ∈ children, WF c) : WF (make_internal_2d children) :=
  WF.internal children hne hc

theorem buildUpAux_spec (cap : Nat) (hcap : 2 ≤ cap) :
    ∀ (fuel : Nat) (level : List Node2D) (h : Nat), level ≠ [] →
      level.length ≤ fuel →
      (∀ c ∈ level, WF c) → (∀ c ∈ level, height_node c = h) →
      ∃ r, buildUpAux cap fuel level = some r ∧ WF r ∧
        node_points r = children_points level ∧
        height_node r = h + Nat.clog cap level.length := by
  intro fuel
  induction fuel with
  | zero =>
      intro level h hne hl
      match level with
      | [] => exact absurd rfl hne
      | [n] => simp at hl
      | a :: b :: t => simp at hl
  | succ f ih =>
      intro level h hne hl hwf hht
      match level with
      | [] => exact absurd rfl hne
      | [n] =>
          refine ⟨n, rfl, hwf n (by simp), ?_, ?_⟩
          · simp [children_points, node_points]
          · rw [hht n (by simp), Nat.clog_of_right_le_one (by simp)]
            omega
      | a :: b :: t =>
          set level := a :: b :: t with hlev
          have hlen2 : 2 ≤ level.length := by simp [hlev]
          have hlens : level.length ≤ level.length := le_refl _
          have hchne : chunks cap level ≠ [] :=
            chunks_ne_nil (by simp [hlev])
          have hchmem : ∀ c ∈ chunks cap level, c ≠ [] :=
            fun c hc => chunks_mem_ne_nil (by omega) hc
          have hchsub : ∀ c ∈ chunks cap level, ∀ x ∈ c, x ∈ level :=
            fun c hc => chunks_mem_subset hc
          have hchlen : (chunks cap level).length =
              (level.length + cap - 1) / cap :=
            chunks_length (by omega) (by simp [hlev])
          have hchlt : (chunks cap level).length < level.length := by
            rw [hchlen]
            rw [Nat.div_lt_iff_lt_mul (by omega : 0 < cap)]
            obtain ⟨x, hx⟩ : ∃ x, level.length = x + 2 :=
              ⟨level.length - 2, by omega⟩
            obtain ⟨y, hy⟩ : ∃ y, cap = y + 2 := ⟨cap - 2, by omega⟩
            have e1 : level.length + cap - 1 = x + y + 3 := by omega
            rw [e1, hx, hy]
            have e2 : (x + 2) * (y + 2) = x * y + 2 * x + 2 * y + 4 := by
              ring
            omega
          set next := (chunks cap level).map make_internal_2d with hnext
          have hnne : next ≠ [] := by
            simp only [hnext, ne_eq, List.map_eq_nil_iff]
            exact hchne
          have hnlen : next.length ≤ f := by
            have : next.length = (chunks cap level).length := by
              simp [hnext]
            omega
          have hnwf : ∀ c ∈ next, WF c := by
            intro c hc
            simp only [hnext, List.mem_map] at hc
            obtain ⟨ch, hch, rfl⟩ := hc
            exact WF_make_internal (hchmem ch hch)
              (fun x hx => hwf x (hchsub ch hch x hx))
          have hnht : ∀ c ∈ next, height_node c = h + 1 := by
            intro c hc
            simp only [hnext, List.mem_map] at hc
            obtain ⟨ch, hch, rfl⟩ := hc
            exact height_node_make_internal (hchmem ch hch)
              (fun x hx => hht x (hchsub ch hch x hx))
          obtain ⟨r, hr, hrwf, hrpts, hrht⟩ :=
            ih next (h + 1) hnne hnlen hnwf hnht
          refine ⟨r, ?_, hrwf, ?_, ?_⟩
          · rw [show buildUpAux cap (f + 1) level =
              buildUpAux cap f ((chunks cap level).map make_internal_2d) from
                rfl]
            exact hr
          · rw [hrpts, hnext, children_points_map_internal _ hchmem,
              chunks_flatten (by omega : (1 : Nat) ≤ cap)]
          · rw [hrht]
            have hnl : next.length = (level.length + cap - 1) / cap := by
              simp [hnext, hchlen]
            have hrec := Nat.clog_of_two_le
              (show 1 < cap by omega) hlen2
            rw [hnl]
            omega

theorem build_2d_tree_spec {points : List Point2D} {cap : Nat}
    (hcap : 2 ≤ cap) (hne : points ≠ []) :
    ∃ r, build_2d_tree points cap = .ret (some r) ∧ WF r ∧
      node_points r = sortPoints points ∧
      height_node r = max 1 (Nat.clog cap points.length) := by
  have hsne : sortPoints points ≠ [] := by
    intro h
    have hp := List.perm_insertionSort pointLE points
    rw [show List.insertionSort pointLE points = sortPoints points from rfl,
      h] at hp
    exact hne hp.nil_eq.symm
  have hslen : (sortPoints points).length = points.length :=
    (List.perm_insertionSort pointLE points).length_eq
  set leaves := (chunks cap (sortPoints points)).map make_leaf_2d with hlv
  have hchne : chunks cap (sortPoints points) ≠ [] :=
    chunks_ne_nil hsne
  have hchmem : ∀ c ∈ chunks cap (sortPoints points), c ≠ [] :=
    fun c hc => chunks_mem_ne_nil (by omega) hc
  have hlne : leaves ≠ [] := by
    simp only [hlv, ne_eq, List.map_eq_nil_iff]
    exact hchne
  have hlwf : ∀ c ∈ leaves, WF c := by
    intro c hc
    simp only [hlv, List.mem_map] at hc
    obtain ⟨ch, hch, rfl⟩ := hc
    exact WF.leaf ch (hchmem ch hch)
  have hlht : ∀ c ∈ leaves, height_node c = 1 := by
    intro c hc
    simp only [hlv, List.mem_map] at hc
    obtain ⟨ch, _, rfl⟩ := hc
    exact height_node_make_leaf ch
  obtain ⟨r, hr, hrwf, hrpts, hrht⟩ :=
    buildUpAux_spec cap hcap leaves.length leaves 1 hlne (le_refl _)
      hlwf hlht
  have hbuild : build_2d_tree points cap = .ret (some r) := by
    rw [build_2d_tree, if_neg hne, if_neg (by omega : ¬ cap = 0)]
    simp only [← hlv, hr]
  have hpts : node_points r = sortPoints points := by
    rw [hrpts, hlv, children_points_map_leaf _ hchmem,
      chunks_flatten (by omega : (1 : Nat) ≤ cap)]
  have hllen : leaves.length = (points.length + cap - 1) / cap := by
    rw [hlv, List.length_map, chunks_length (by omega) hsne, hslen]
  refine ⟨r, hbuild, hrwf, hpts, ?_⟩
  rw [hrht, hllen]
  by_cases h1 : points.length ≤ 1
  · have hl1 : points.length = 1 := by
      have : points.length ≠ 0 := by
        simp only [ne_eq, List.length_eq_zero]
        exact hne
      omega
    rw [hl1]
    have he : (1 + cap - 1) / cap = 1 := by
      rw [show 1 + cap - 1 = cap by omega]
      exact Nat.div_self (by omega)
    rw [he, Nat.clog_of_right_le_one (by omega)]
    simp
  · push_neg at h1
    have hrec := Nat.clog_of_two_le (show 1 < cap by omega) h1
    have hpos : 1 ≤ Nat.clog cap points.length := by
      by_contra hc
      push_neg at hc
      have := (Nat.le_pow_iff_clog_le (show 1 < cap by omega)
        (x := points.length) (y := 0)).mpr (by omega)
      simp at this
      omega
    omega

/-! ## MBR containment and pruning -/

theorem subRect_trans {r s t : Rectangle} (h1 : subRect r s)
    (h2 : subRect s t) : subRect r t := by
  simp only [subRect] at *
  omega

theorem inRect_mono {p : Point} {r s : Rectangle} (h1 : inRect p r)
    (h2 : subRect r s) : inRect p s := by
  simp only [inRect, subRect] at *
  omega

theorem subRect_enlarge_left (r s : Rectangle) : subRect r (enlarge r s) := by
  simp only [subRect, enlarge]
  omega

theorem subRect_enlarge_right (r s : Rectangle) : subRect s (enlarge r s) := by
  simp only [subRect, enlarge]
  omega

theorem inRect_enlargeP (r : Rectangle) (p : Point) :
    inRect p (enlargeP r p) := by
  simp only [inRect, enlargeP]
  omega

theorem subRect_enlargeP (r : Rectangle) (p : Point) :
    subRect r (enlargeP r p) := by
  simp only [subRect, enlargeP]
  omega

theorem subRect_foldl_enlargeP :
    ∀ (pts : List Point2D) (acc : Rectangle),
      subRect acc (pts.foldl (fun r p => enlargeP r p.loc) acc)
  | [], acc => by simp [subRect]
  | p :: pts, acc =>
      subRect_trans (subRect_enlargeP acc p.loc)
        (subRect_foldl_enlargeP pts _)

theorem mem_foldl_enlargeP :
    ∀ {pts : List Point2D} {p : Point2D} (acc : Rectangle), p ∈ pts →
      inRect p.loc (pts.foldl (fun r x => enlargeP r x.loc) acc) := by
  intro pts
  induction pts with
  | nil => intro p acc h; simp at h
  | cons x xs ih =>
      intro p acc h
      rcases List.mem_cons.mp h with h | h
      · subst h
        exact inRect_mono (inRect_enlargeP acc p.loc)
          (subRect_foldl_enlargeP xs _)
      · exact ih _ h

theorem subRect_foldl_enlarge :
    ∀ (cs : List Node2D) (acc : Rectangle),
      subRect acc (cs.foldl (fun r c => enlarge r c.getRect) acc)
  | [], acc => by simp [subRect]
  | c :: cs, acc =>
      subRect_trans (subRect_enlarge_left acc c.getRect)
        (subRect_foldl_enlarge cs _)

theorem mem_foldl_enlarge :
    ∀ {cs : List Node2D} {c : Node2D} (acc : Rectangle), c ∈ cs →
      subRect c.getRect (cs.foldl (fun r x => enlarge r x.getRect) acc) := by
  intro cs
  induction cs with
  | nil => intro c acc h; simp at h
  | cons x xs ih =>
      intro c acc h
      rcases List.mem_cons.mp h with h | h
      · subst h
        exact subRect_trans (subRect_enlarge_right acc c.getRect)
          (subRect_foldl_enlarge xs _)
      · exact ih _ h

theorem children_points_mem {cs : List Node2D} {p : Point2D} :
    p ∈ children_points cs ↔ ∃ c ∈ cs, p ∈ node_points c := by
  induction cs with
  | nil => simp [children_points]
  | cons c cs ih =>
      simp only [children_points, List.mem_append, ih, List.mem_cons]
      constructor
      · rintro (h | ⟨c', hc', hp⟩)
        · exact ⟨c, Or.inl rfl, h⟩
        · exact ⟨c', Or.inr hc', hp⟩
      · rintro ⟨c', h | hc', hp⟩
        · subst h; exact Or.inl hp
        · exact Or.inr ⟨c', hc', hp⟩

/-- Every point stored beneath a well-formed node lies inside the node's
MBR. -/
theorem WF_points_in_rect {n : Node2D} (hw : WF n) :
    ∀ p ∈ node_points n, inRect p.loc n.getRect := by
  induction hw with
  | leaf pts hne =>
      intro p hp
      rw [node_points_make_leaf hne] at hp
      rw [make_leaf_2d_eq hne, Node2D.getRect, compute_mbr, if_neg hne]
      exact mem_foldl_enlargeP _ hp
  | internal cs hne hc ih =>
      intro p hp
      rw [node_points_make_internal hne] at hp
      obtain ⟨c, hcm, hpc⟩ := children_points_mem.mp hp
      rw [make_internal_2d_eq hne, Node2D.getRect]
      exact inRect_mono (ih c hcm p hpc) (mem_foldl_enlarge _ hcm)

/-- A matching point inside a node's MBR forces the MBR to intersect the
query rectangle — the justification of pruning. -/
theorem intersect_of_contains {p : Point2D} {rect q : Rectangle}
    (hin : inRect p.loc rect) (hc : contains p q = true) :
    intersect rect q = true := by
  simp only [contains, decide_eq_true_eq] at hc
  simp only [inRect] at hin
  simp only [intersect, decide_eq_true_eq]
  omega

/-! ## The verifier recomputes what the builder committed -/

/-- The leaf loop of `verify_2d`, split into its four independent
accumulators: the enlarge-fold, the serialization fold, the filtered
points, and the `points_returned` count. -/
theorem foldl_verify_leaf_step (q : Rectangle) :
    ∀ (pts : List Point2D) (mbr : Rectangle) (buf : Buffer)
      (m : List Point2D) (st : QueryStats2D),
      pts.foldl (verify_leaf_step q) (mbr, buf, m, st) =
        (pts.foldl (fun r p => enlargeP r p.loc) mbr,
         pts.foldl put_point2d buf,
         m ++ pts.filter (fun p => contains p q),
         { st with points_returned :=
             st.points_returned + (pts.filter (fun p => contains p q)).length })
  | [], mbr, buf, m, st => by simp
  | p :: pts, mbr, buf, m, st => by
      by_cases hc : contains p q
      · have hstep : verify_leaf_step q (mbr, buf, m, st) p =
            (enlargeP mbr p.loc, put_point2d buf p, m ++ [p],
              { st with points_returned := st.points_returned + 1 }) := by
          simp [verify_leaf_step, hc]
        have hfp : List.filter (fun x => contains x q) (p :: pts) =
            p :: List.filter (fun x => contains x q) pts :=
          List.filter_cons_of_pos hc
        rw [List.foldl_cons, hstep, foldl_verify_leaf_step q pts, hfp]
        simp only [Prod.mk.injEq]
        refine ⟨rfl, rfl, by simp, ?_⟩
        simp only [List.length_cons]
        congr 1
        omega
      · have hstep : verify_leaf_step q (mbr, buf, m, st) p =
            (enlargeP mbr p.loc, put_point2d buf p, m, st) := by
          simp [verify_leaf_step, hc]
        have hfn : List.filter (fun x => contains x q) (p :: pts) =
            List.filter (fun x => contains x q) pts :=
          List.filter_cons_of_neg (by simp [hc])
        rw [List.foldl_cons, hstep, foldl_verify_leaf_step q pts, hfn]
        rfl

theorem verify_node_vleaf (q : Rectangle) (pts : List Point2D)
    (st : QueryStats2D) :
    verify_node q (.vleaf pts) st =
      (⟨pts.foldl (fun r p => enlargeP r p.loc) EMPTY_RECT,
        sha256 (pts.foldl put_point2d []),
        pts.filter (fun p => contains p q)⟩,
       { st with points_returned :=
           st.points_returned + (pts.filter (fun p => contains p q)).length }) := by
  rw [verify_node, foldl_verify_leaf_step]
  rfl

/-- The child loop of the verifier over the child VOs the query engine
produced: given that each child verifies back to its stored data, the
loop folds the children's stored rectangles and digests onto the
accumulators and appends the filtered points, child by child. -/
theorem verify_children_fold (q : Rectangle) :
    ∀ (cs : List Node2D),
      (∀ c ∈ cs, ∀ s₁ s₂ : QueryStats2D,
        (verify_node q (range_query_node q c s₁).1 s₂).1 =
          ⟨c.getRect, c.getHash,
            (node_points c).filter (fun p => contains p q)⟩) →
      ∀ (s₁ s₂ : QueryStats2D) (mbr : Rectangle) (buf : Buffer)
        (pts : List Point2D),
      (verify_children q (range_query_children q cs s₁).1 mbr buf pts
          s₂).1 =
        cs.foldl (fun r c => enlarge r c.getRect) mbr ∧
      (verify_children q (range_query_children q cs s₁).1 mbr buf pts
          s₂).2.1 =
        cs.foldl (fun b c => put_entry b c.getRect c.getHash) buf ∧
      (verify_children q (range_query_children q cs s₁).1 mbr buf pts
          s₂).2.2.1 =
        pts ++ (children_points cs).filter (fun p => contains p q) := by
  intro cs
  induction cs with
  | nil =>
      intro _ s₁ s₂ mbr buf pts
      simp [range_query_children, verify_children, children_points]
  | cons c cs ih =>
      intro hw s₁ s₂ mbr buf pts
      have hrq : (range_query_children q (c :: cs) s₁).1 =
          (range_query_node q c s₁).1 ::
            (range_query_children q cs (range_query_node q c s₁).2).1 := by
        rw [range_query_children]
      rw [hrq]
      have hvc : ∀ vo vos s,
          verify_children q (vo :: vos) mbr buf pts s =
            verify_children q vos
              (enlarge mbr (verify_node q vo s).1.rect)
              (put_entry buf (verify_node q vo s).1.rect
                (verify_node q vo s).1.hash)
              (pts ++ (verify_node q vo s).1.points)
              (verify_node q vo s).2 := by
        intro vo vos s
        rw [verify_children]
      rw [hvc]
      have hn := hw c (by simp) s₁ s₂
      rw [hn]
      have hrest := ih (fun x hx => hw x (by simp [hx]))
        (range_query_node q c s₁).2
        (verify_node q (range_query_node q c s₁).1 s₂).2
        (enlarge mbr c.getRect)
        (put_entry buf c.getRect c.getHash)
        (pts ++ (node_points c).filter (fun p => contains p q))
      obtain ⟨h1, h2, h3⟩ := hrest
      refine ⟨?_, ?_, ?_⟩
      · rw [h1]; rfl
      · rw [h2]; rfl
      · rw [h3]
        simp only [children_points, List.filter_append, List.append_assoc]

/-- Running the verifier on the VO the query engine produced at a
well-formed node recomputes exactly the node's stored MBR and digest,
and returns the node's points filtered by the query, whatever the two
statistics collectors hold. -/
theorem verify_rq_node (q : Rectangle) (n : Node2D) (hw : WF n) :
    ∀ s₁ s₂ : QueryStats2D,
    (verify_node q (range_query_node q n s₁).1 s₂).1 =
      ⟨n.getRect, n.getHash,
        (node_points n).filter (fun p => contains p q)⟩ := by
  induction hw with
  | leaf pts hne =>
      intro s₁ s₂
      rw [make_leaf_2d_eq hne]
      show (verify_node q (.vleaf pts) s₂).1 = _
      rw [verify_node_vleaf]
      simp only [Node2D.getRect, Node2D.getHash, node_points]
      rw [compute_mbr, if_neg hne]
  | internal cs hne hc ih =>
      intro s₁ s₂
      rw [make_internal_2d_eq hne]
      by_cases hint : intersect
          (cs.foldl (fun r c => enlarge r c.getRect) EMPTY_RECT) q
      · have hq : (range_query_node q
            (.internal (cs.foldl (fun r c => enlarge r c.getRect) EMPTY_RECT)
              (sha256 (cs.foldl
                (fun buf c => put_entry buf c.getRect c.getHash) [])) cs)
            s₁).1 =
            .vcontainer ((range_query_children q cs
              { s₁ with nodes_visited := s₁.nodes_visited + 1 }).1) := by
          simp only [range_query_node]
          rw [if_pos hint]
        rw [hq, verify_node]
        have hch := verify_children_fold q cs ih
          { s₁ with nodes_visited := s₁.nodes_visited + 1 } s₂
          EMPTY_RECT [] []
        obtain ⟨h1, h2, h3⟩ := hch
        simp only [Node2D.getRect, Node2D.getHash, node_points]
        rw [h1, h2, h3]
        rfl
      · have hq : (range_query_node q
            (.internal (cs.foldl (fun r c => enlarge r c.getRect) EMPTY_RECT)
              (sha256 (cs.foldl
                (fun buf c => put_entry buf c.getRect c.getHash) [])) cs)
            s₁).1 =
            .vpruned (cs.foldl (fun r c => enlarge r c.getRect) EMPTY_RECT)
              (sha256 (cs.foldl
                (fun buf c => put_entry buf c.getRect c.getHash) [])) := by
          simp only [range_query_node]
          rw [if_neg hint]
        rw [hq, verify_node]
        simp only [Node2D.getRect, Node2D.getHash, node_points]
        have hfil : (children_points cs).filter (fun p => contains p q)
            = [] := by
          rw [List.filter_eq_nil_iff]
          intro p hp hcp
          have hwn : WF (.internal
              (cs.foldl (fun r c => enlarge r c.getRect) EMPTY_RECT)
              (sha256 (cs.foldl
                (fun buf c => put_entry buf c.getRect c.getHash) [])) cs) := by
            rw [← make_internal_2d_eq hne]
            exact WF.internal cs hne hc
          have hin := WF_points_in_rect hwn p (by
            simpa [node_points] using hp)
          simp only [Node2D.getRect] at hin
          exact absurd (intersect_of_contains hin hcp) (by simpa using hint)
        rw [hfil]

theorem sortPoints_ne_nil {points : List Point2D} (hne : points ≠ []) :
    sortPoints points ≠ [] := by
  intro h
  have hp := List.perm_insertionSort pointLE points
  rw [show List.insertionSort pointLE points = sortPoints points from rfl,
    h] at hp
  exact hne hp.nil_eq.symm

theorem buildUpAux_WF (cap : Nat) (hcap : 1 ≤ cap) :
    ∀ (fuel : Nat) (level : List Node2D) (r : Node2D),
      buildUpAux cap fuel level = some r → (∀ c ∈ level, WF c) →
      WF r ∧ node_points r = children_points level := by
  intro fuel
  induction fuel with
  | zero =>
      intro level r h hwf
      match level with
      | [] => exact absurd h (by simp [buildUpAux])
      | [n] =>
          have hn : n = r := by simpa [buildUpAux] using h
          subst hn
          exact ⟨hwf n (by simp), by simp [children_points, node_points]⟩
      | a :: b :: t => exact absurd h (by simp [buildUpAux])
  | succ f ih =>
      intro level r h hwf
      match level with
      | [] => exact absurd h (by simp [buildUpAux])
      | [n] =>
          have hn : n = r := by simpa [buildUpAux] using h
          subst hn
          exact ⟨hwf n (by simp), by simp [children_points, node_points]⟩
      | a :: b :: t =>
          set level := a :: b :: t with hlev
          have hstep : buildUpAux cap (f + 1) level =
              buildUpAux cap f ((chunks cap level).map make_internal_2d) :=
            rfl
          rw [hstep] at h
          have hchmem : ∀ c ∈ chunks cap level, c ≠ [] :=
            fun c hc => chunks_mem_ne_nil hcap hc
          have hnwf : ∀ c ∈ (chunks cap level).map make_internal_2d,
              WF c := by
            intro c hc
            simp only [List.mem_map] at hc
            obtain ⟨ch, hch, rfl⟩ := hc
            exact WF_make_internal (hchmem ch hch)
              (fun x hx => hwf x (chunks_mem_subset hch x hx))
          obtain ⟨hrwf, hrpts⟩ := ih _ r h hnwf
          refine ⟨hrwf, ?_⟩
          rw [hrpts, children_points_map_internal _ hchmem,
            chunks_flatten hcap]

/-- Whenever the bulk loader returns a root at all, that root is
well-formed and stores, in order, exactly the sorted input points. -/
theorem build_2d_tree_WF {points : List Point2D} {cap : Nat} {r : Node2D}
    (h : build_2d_tree points cap = .ret (some r)) :
    WF r ∧ node_points r = sortPoints points := by
  by_cases hp : points = []
  · rw [build_2d_tree, if_pos hp] at h
    exact absurd h (by simp)
  · by_cases hc0 : cap = 0
    · rw [build_2d_tree, if_neg hp, if_pos hc0] at h
      exact absurd h (by simp)
    · simp only [build_2d_tree, if_neg hp, if_neg hc0] at h
      have hcap : 1 ≤ cap := by omega
      have hsne := sortPoints_ne_nil hp
      have hchmem : ∀ c ∈ chunks cap (sortPoints points), c ≠ [] :=
        fun c hc => chunks_mem_ne_nil hcap hc
      set leaves := (chunks cap (sortPoints points)).map make_leaf_2d
        with hlv
      cases heq : buildUpAux cap leaves.length leaves with
      | none =>
          rw [heq] at h
          exact absurd h (by simp)
      | some root =>
          rw [heq] at h
          have hroot : root = r := by
            simpa using h
          subst hroot
          have hlwf : ∀ c ∈ leaves, WF c := by
            intro c hc
            simp only [hlv, List.mem_map] at hc
            obtain ⟨ch, hch, rfl⟩ := hc
            exact WF.leaf ch (hchmem ch hch)
          obtain ⟨hwf, hpts⟩ := buildUpAux_WF cap hcap _ _ _ heq hlwf
          refine ⟨hwf, ?_⟩
          rw [hpts, hlv, children_points_map_leaf _ hchmem,
            chunks_flatten hcap]

/-! ## Claims C1, C2, C10 -/

/-- C1.  For every tree built by `build_2d_tree` from a non-empty point
sequence and every query rectangle `q`, verifying the verification
object produced by `range_query_2d(root, q)` with `verify_2d(vo, q)`
yields a digest equal to the root node's stored digest, for any
statistics collectors. -/
theorem claim_C1_round_trip_digest (points : List Point2D) (cap : Nat)
    (q : Rectangle) (r : Node2D) (s₀ s₁ : QueryStats2D)
    (h : build_2d_tree points cap = .ret (some r)) :
    ∃ (res : VResult2D) (s' : QueryStats2D),
      verify_2d (range_query_2d (some r) q s₀).1 q s₁ = (some res, s') ∧
      res.hash = r.getHash := by
  obtain ⟨hwf, _⟩ := build_2d_tree_WF h
  refine ⟨(verify_node q (range_query_node q r s₀).1 s₁).1,
    (verify_node q (range_query_node q r s₀).1 s₁).2, rfl, ?_⟩
  rw [verify_rq_node q r hwf s₀ s₁]

/-- Witness for C1: the S1 scenario — dataset of four points, capacity 2,
query `(5,5,25,25)` — round-trips the root digest. -/
theorem claim_C1_witness :
    ∃ (res : VResult2D) (s' : QueryStats2D),
      verify_2d (range_query_2d (some sampleRoot) sampleQuery initStats).1
          sampleQuery initStats = (some res, s') ∧
      res.hash = sampleRoot.getHash :=
  claim_C1_round_trip_digest sampleData 2 sampleQuery sampleRoot
    initStats initStats (by rfl)

/-- C2.  For every tree built from a dataset and every query rectangle
`q`, query-then-verify returns, in order, exactly the subsequence of the
sorted dataset whose points satisfy `contains(p, q)`; in particular the
returned multiset is `{ p ∈ dataset : contains(p, q) }`. -/
theorem claim_C2_completeness (points : List Point2D) (cap : Nat)
    (q : Rectangle) (r : Node2D) (s : QueryStats2D)
    (h : build_2d_tree points cap = .ret (some r)) :
    ∃ (res : VResult2D) (s' : QueryStats2D),
      query_and_verify_2d (some r) q s = (some res, s') ∧
      res.points = (sortPoints points).filter (fun p => contains p q) ∧
      res.points.Perm (points.filter (fun p => contains p q)) := by
  obtain ⟨hwf, hpts⟩ := build_2d_tree_WF h
  refine ⟨_, _, rfl, ?_, ?_⟩
  · show (verify_node q (range_query_node q r _).1 _).1.points = _
    rw [verify_rq_node q r hwf]
    rw [hpts]
  · show (verify_node q (range_query_node q r _).1 _).1.points.Perm _
    rw [verify_rq_node q r hwf]
    rw [hpts]
    exact (List.perm_insertionSort pointLE points).filter _

/-- Witness for C2: the S1 scenario returns exactly the points of the
sorted dataset matching the query. -/
theorem claim_C2_witness :
    ∃ (res : VResult2D) (s' : QueryStats2D),
      query_and_verify_2d (some sampleRoot) sampleQuery initStats =
        (some res, s') ∧
      res.points =
        (sortPoints sampleData).filter (fun p => contains p sampleQuery) ∧
      res.points.Perm
        (sampleData.filter (fun p => contains p sampleQuery)) :=
  claim_C2_completeness sampleData 2 sampleQuery sampleRoot initStats
    (by rfl)

/-- C10.  `query_and_verify_2d` sets `nodes_visited`, `nodes_pruned`,
`points_examined` and `points_returned` to zero before traversing, so
its outcome — the four counters included — is the same whatever the
caller's collector held beforehand. -/
theorem claim_C10_stats_reset (root : Option Node2D) (q : Rectangle)
    (s : QueryStats2D) :
    query_and_verify_2d root q s = query_and_verify_2d root q initStats :=
  rfl

/-! ## Claim C4: permutation invariance of the build -/

theorem pointLE_iff {a b : Point2D} :
    pointLE a b ↔
      (a.loc.x < b.loc.x ∨ (a.loc.x = b.loc.x ∧ a.loc.y ≤ b.loc.y)) := by
  simp only [pointLE, Point2D.ltP, Point.ltP, not_or, not_and, not_lt]
  omega

instance : IsTotal Point2D pointLE :=
  ⟨by
    intro a b
    rw [pointLE_iff, pointLE_iff]
    omega⟩

instance : IsTrans Point2D pointLE :=
  ⟨by
    intro a b c hab hbc
    rw [pointLE_iff] at *
    omega⟩

/-- Two sorted lists that are permutations of one another are equal,
provided the order is antisymmetric on their members. -/
theorem eq_of_perm_of_sorted_of_antisymm {α : Type} {r : α → α → Prop} :
    ∀ {l₁ l₂ : List α}, l₁.Perm l₂ → List.Sorted r l₁ →
      List.Sorted r l₂ →
      (∀ a ∈ l₁, ∀ b ∈ l₁, r a b → r b a → a = b) → l₁ = l₂ := by
  intro l₁
  induction l₁ with
  | nil => intro l₂ hp _ _ _; exact hp.nil_eq
  | cons a t ih =>
      intro l₂ hp hs₁ hs₂ has
      match l₂ with
      | [] => exact absurd hp.symm.nil_eq (by simp)
      | b :: t₂ =>
          have hab : a = b := by
            have ha2 : a ∈ b :: t₂ := hp.subset (by simp)
            have hb1 : b ∈ a :: t := hp.symm.subset (by simp)
            rcases List.mem_cons.mp ha2 with h | h
            · exact h
            rcases List.mem_cons.mp hb1 with h' | h'
            · exact h'.symm
            have hrab : r a b := (List.sorted_cons.mp hs₁).1 b h'
            have hrba : r b a := (List.sorted_cons.mp hs₂).1 a h
            exact has a (by simp) b (by simp [h']) hrab hrba
          subst hab
          have ht : t.Perm t₂ := hp.cons_inv
          rw [ih ht (List.sorted_cons.mp hs₁).2 (List.sorted_cons.mp hs₂).2
            (fun x hx y hy => has x (by simp [hx]) y (by simp [hy]))]

theorem loc_eq_of_pointLE {a b : Point2D} (h1 : pointLE a b)
    (h2 : pointLE b a) : a.loc = b.loc := by
  rw [pointLE_iff] at h1 h2
  have hx : a.loc.x = b.loc.x := by omega
  have hy : a.loc.y = b.loc.y := by omega
  cases ha : a.loc
  cases hb : b.loc
  rw [ha, hb] at hx hy
  simp at hx hy
  simp [hx, hy]

theorem eq_of_mem_pairwise_loc_ne :
    ∀ {l : List Point2D},
      l.Pairwise (fun a b => a.loc ≠ b.loc) →
      ∀ a ∈ l, ∀ b ∈ l, a.loc = b.loc → a = b := by
  intro l
  induction l with
  | nil => intro _ a ha; simp at ha
  | cons x xs ih =>
      intro hp a ha b hb heq
      have hx := (List.pairwise_cons.mp hp).1
      have hxs := (List.pairwise_cons.mp hp).2
      rcases List.mem_cons.mp ha with ha' | ha' <;>
        rcases List.mem_cons.mp hb with hb' | hb'
      · rw [ha', hb']
      · exact absurd (ha' ▸ heq) (hx b hb')
      · exact absurd (hb' ▸ heq.symm) (hx a ha')
      · exact ih hxs a ha' b hb' heq

/-- Sorting two permutations of a tie-free dataset (pairwise distinct
locations) gives the same list. -/
theorem sortPoints_perm_eq {l₁ l₂ : List Point2D} (hp : l₁.Perm l₂)
    (hd : l₁.Pairwise (fun a b => a.loc ≠ b.loc)) :
    sortPoints l₁ = sortPoints l₂ := by
  apply eq_of_perm_of_sorted_of_antisymm
    ((List.perm_insertionSort pointLE l₁).trans
      (hp.trans (List.perm_insertionSort pointLE l₂).symm))
    (List.sorted_insertionSort pointLE l₁)
    (List.sorted_insertionSort pointLE l₂)
  intro a ha b hb hab hba
  have ha' : a ∈ l₁ := (List.perm_insertionSort pointLE l₁).subset ha
  have hb' : b ∈ l₁ := (List.perm_insertionSort pointLE l₁).subset hb
  exact eq_of_mem_pairwise_loc_ne hd a ha' b hb' (loc_eq_of_pointLE hab hba)

/-- The claim C4 fails on the code: `std::sort` with the location-only
comparator leaves the relative order of equal-location points
unspecified, and that order is committed to the digest.  Two
permutations of a dataset with a repeated location give different root
digests. -/
theorem claim_C4_counterexample :
    ([⟨0, ⟨0, 0⟩⟩, ⟨1, ⟨0, 0⟩⟩] : List Point2D).Perm
        [⟨1, ⟨0, 0⟩⟩, ⟨0, ⟨0, 0⟩⟩] ∧
      build_root_hash [⟨0, ⟨0, 0⟩⟩, ⟨1, ⟨0, 0⟩⟩] 2 ≠
        build_root_hash [⟨1, ⟨0, 0⟩⟩, ⟨0, ⟨0, 0⟩⟩] 2 := by
  constructor
  · decide
  · decide

/-- C4 as amended: for datasets without comparator ties (pairwise
distinct locations), building from any permutation gives the same tree,
and in particular the same root digest, for every capacity. -/
theorem claim_C4_amended (l₁ l₂ : List Point2D) (cap : Nat)
    (hp : l₁.Perm l₂)
    (hd : l₁.Pairwise (fun a b => a.loc ≠ b.loc)) :
    build_2d_tree l₁ cap = build_2d_tree l₂ cap ∧
      build_root_hash l₁ cap = build_root_hash l₂ cap := by
  have hs := sortPoints_perm_eq hp hd
  have hb : build_2d_tree l₁ cap = build_2d_tree l₂ cap := by
    by_cases h1 : l₁ = []
    · subst h1
      rw [hp.nil_eq.symm]
    · have h2 : l₂ ≠ [] := by
        intro h
        rw [h] at hp
        exact h1 hp.eq_nil
      simp only [build_2d_tree, if_neg h1, if_neg h2, hs]
  exact ⟨hb, by rw [build_root_hash, build_root_hash, hb]⟩

/-- Witness for the amended C4: a two-point dataset with distinct
locations and its reversal build identical trees at capacity 2. -/
theorem claim_C4_witness :
    build_2d_tree [⟨0, ⟨1, 0⟩⟩, ⟨1, ⟨0, 0⟩⟩] 2 =
        build_2d_tree [⟨1, ⟨0, 0⟩⟩, ⟨0, ⟨1, 0⟩⟩] 2 ∧
      build_root_hash [⟨0, ⟨1, 0⟩⟩, ⟨1, ⟨0, 0⟩⟩] 2 =
        build_root_hash [⟨1, ⟨0, 0⟩⟩, ⟨0, ⟨1, 0⟩⟩] 2 :=
  claim_C4_amended _ _ 2 (by decide) (by decide)

/-! ## Claims C5-C8: totality, boundary checks, the empty tree, height -/

/-- The claim C5 fails on the code: capacity 1 is positive, yet on two
points the level loop of `build_2d_tree` never shrinks the level and the
function never returns (modelled as `diverges`). -/
theorem claim_C5_counterexample :
    build_2d_tree [⟨0, ⟨0, 0⟩⟩, ⟨1, ⟨1, 1⟩⟩] 1 = .diverges := rfl

/-- C5 as amended: on a non-empty point sequence `build_2d_tree`
terminates with a non-null root for every capacity at least 2, and also
at capacity 1 when a single point leaves nothing for the level loop to
regroup. -/
theorem claim_C5_amended (points : List Point2D) (cap : Nat)
    (hne : points ≠ [])
    (hcap : 2 ≤ cap ∨ (1 ≤ cap ∧ points.length = 1)) :
    ∃ r, build_2d_tree points cap = .ret (some r) := by
  rcases hcap with h2 | ⟨h1, hlen⟩
  · obtain ⟨r, hb, _⟩ := build_2d_tree_spec h2 hne
    exact ⟨r, hb⟩
  · obtain ⟨p, rfl⟩ : ∃ p, points = [p] := by
      match points with
      | [] => exact absurd rfl hne
      | [p] => exact ⟨p, rfl⟩
      | a :: b :: t => simp at hlen
    refine ⟨make_leaf_2d [p], ?_⟩
    have hch : chunks cap [p] = [[p]] := by
      have h0 : chunks cap [p] =
          [p].take cap :: chunksAux cap 0 ([p].drop cap) := rfl
      rw [h0, List.take_of_length_le (by simp [h1]),
        List.drop_eq_nil_of_le (by simp [h1])]
      rfl
    simp only [build_2d_tree, if_neg (show ¬ [p] = [] by simp),
      if_neg (show ¬ cap = 0 by omega),
      show sortPoints [p] = [p] from rfl, hch, List.map_cons,
      List.map_nil, List.length_cons, List.length_nil, buildUpAux]

/-- Witness for the amended C5: two points at capacity 2 build a root. -/
theorem claim_C5_witness :
    ∃ r, build_2d_tree [⟨0, ⟨0, 0⟩⟩, ⟨1, ⟨1, 1⟩⟩] 2 = .ret (some r) :=
  claim_C5_amended _ 2 (by decide) (Or.inl (by omega))

/-- The claim C6 fails on the code: neither function validates its
arguments.  `build_2d_tree` with capacity 0 on a non-empty dataset loops
forever instead of refusing, and `range_query_2d` processes an invalid
rectangle (`lx > ux`, `ly > uy`) like any other query, emitting a VO. -/
theorem claim_C6_counterexample :
    build_2d_tree [⟨0, ⟨0, 0⟩⟩] 0 = .diverges ∧
      (range_query_2d (some (make_leaf_2d [⟨0, ⟨0, 0⟩⟩])) ⟨1, 1, 0, 0⟩
          initStats).1 = some (.vleaf [⟨0, ⟨0, 0⟩⟩]) :=
  ⟨rfl, rfl⟩

/-- C6 as amended: no boundary validation exists.  Zero capacity sends
`build_2d_tree` into an infinite loop on any non-empty dataset, and
`range_query_2d` returns a VO for every non-null root whatever the
rectangle, invalid ones included. -/
theorem claim_C6_amended (points : List Point2D) (q : Rectangle)
    (n : Node2D) (s : QueryStats2D) (hne : points ≠ []) :
    build_2d_tree points 0 = .diverges ∧
      (range_query_2d (some n) q s).1.isSome = true := by
  constructor
  · rw [build_2d_tree, if_neg hne, if_pos rfl]
  · rfl

/-- Witness for the amended C6 at a concrete dataset, node and invalid
rectangle. -/
theorem claim_C6_witness :
    build_2d_tree [⟨0, ⟨0, 0⟩⟩] 0 = .diverges ∧
      (range_query_2d (some (make_leaf_2d [⟨0, ⟨0, 0⟩⟩])) ⟨1, 1, 0, 0⟩
          initStats).1.isSome = true :=
  claim_C6_amended [⟨0, ⟨0, 0⟩⟩] ⟨1, 1, 0, 0⟩
    (make_leaf_2d [⟨0, ⟨0, 0⟩⟩]) initStats (by decide)

/-- The claim C7 fails on the code: on the empty dataset the loader does
return a null root, but querying and verifying that null root return
null — no result object, hence no conventional empty digest, is ever
produced. -/
theorem claim_C7_counterexample :
    build_2d_tree ([] : List Point2D) 4 = .ret none ∧
      (range_query_2d none ⟨0, 0, 10, 10⟩ initStats).1 = none ∧
      ¬ ∃ res : VResult2D,
        (verify_2d (range_query_2d none ⟨0, 0, 10, 10⟩ initStats).1
            ⟨0, 0, 10, 10⟩ initStats).1 = some res := by
  refine ⟨rfl, rfl, ?_⟩
  rintro ⟨res, h⟩
  exact Option.noConfusion h

/-- C7 as amended: on the empty dataset the loader returns a null root,
and query and verify on a null root pass the null through — they return
no VO and no result (and therefore no digest), leaving the statistics
untouched. -/
theorem claim_C7_amended (cap : Nat) (q : Rectangle)
    (s₁ s₂ : QueryStats2D) :
    build_2d_tree [] cap = .ret none ∧
      range_query_2d none q s₁ = (none, s₁) ∧
      verify_2d none q s₂ = (none, s₂) :=
  ⟨rfl, rfl, rfl⟩

/-- The claim C8 fails on the code at `N = 1`: a single point builds a
single leaf of height 1, while `⌈log_capacity 1⌉ = 0`. -/
theorem claim_C8_counterexample :
    build_2d_tree [⟨0, ⟨0, 0⟩⟩] 2 =
        .ret (some (make_leaf_2d [⟨0, ⟨0, 0⟩⟩])) ∧
      height_2d_tree (some (make_leaf_2d [⟨0, ⟨0, 0⟩⟩])) = 1 ∧
      Nat.clog 2 ([⟨0, ⟨0, 0⟩⟩] : List Point2D).length = 0 := by
  refine ⟨rfl, rfl, ?_⟩
  exact Nat.clog_of_right_le_one (by simp) 2

/-- C8 as amended: for capacity at least 2 and a non-empty dataset of
`N` points, the built tree's height is `max 1 ⌈log_capacity N⌉` — the
ceiling logarithm, except that a single point still occupies one leaf
level. -/
theorem claim_C8_amended (points : List Point2D) (cap : Nat) (r : Node2D)
    (hcap : 2 ≤ cap) (hne : points ≠ [])
    (h : build_2d_tree points cap = .ret (some r)) :
    height_2d_tree (some r) = max 1 (Nat.clog cap points.length) := by
  obtain ⟨r', hb, _, _, hh⟩ := build_2d_tree_spec hcap hne
  rw [h] at hb
  have hr : r = r' := by
    cases hb
    rfl
  rw [height_2d_tree, hr]
  exact hh

/-- Witness for the amended C8: the S1 dataset (4 points) at capacity 2
has height `max 1 ⌈log₂ 4⌉ = 2`. -/
theorem claim_C8_witness :
    height_2d_tree (some sampleRoot) =
      max 1 (Nat.clog 2 sampleData.length) :=
  claim_C8_amended sampleData 2 sampleRoot (by omega) (by decide) (by rfl)

/-! ## Claim C9: leaf construction -/

/-- C9.  For every non-empty point sequence, `make_leaf_2d` returns a
leaf whose MBR is the enlarge-fold of the points' locations and whose
digest is the hash of the concatenation, in sequence order, of each
point serialized as little-endian `u32 id ‖ i32 x ‖ i32 y`, with no
framing or separators (`serialize_points` is defined from the spec's
words; the source-side buffer is proved byte-identical to it). -/
theorem claim_C9_leaf_serialization (points : List Point2D)
    (hne : points ≠ []) :
    make_leaf_2d points =
      .leaf (points.foldl (fun r p => enlargeP r p.loc) EMPTY_RECT)
        (sha256 (serialize_points points)) points := by
  have hb : points.foldl put_point2d [] = serialize_points points := by
    rw [foldl_put_point2d, List.nil_append, serialize_points]
    congr 1
  rw [make_leaf_2d_eq hne, hb, compute_mbr, if_neg hne]

/-- Witness for C9 at the S1 dataset. -/
theorem claim_C9_witness :
    make_leaf_2d sampleData =
      .leaf (sampleData.foldl (fun r p => enlargeP r p.loc) EMPTY_RECT)
        (sha256 (serialize_points sampleData)) sampleData :=
  claim_C9_leaf_serialization sampleData (by decide)

/-! ## Claim C3: tamper detection.  Byte-level roundtrips first -/

theorem exists_four {α : Type} :
    ∀ (l : List α), l.length = 4 → ∃ a b c d, l = [a, b, c, d]
  | [a, b, c, d], _ => ⟨a, b, c, d, rfl⟩
  | [], h => by simp at h
  | [_], h => by simp at h
  | [_, _], h => by simp at h
  | [_, _, _], h => by simp at h
  | _ :: _ :: _ :: _ :: _ :: _, h => by
      simp only [List.length_cons] at h
      omega

theorem u32le_bytesToNat {b0 b1 b2 b3 : Nat} (h0 : b0 < 256)
    (h1 : b1 < 256) (h2 : b2 < 256) (h3 : b3 < 256) :
    u32le (bytesToNat [b0, b1, b2, b3]) = [b0, b1, b2, b3] := by
  simp only [u32le, bytesToNat, List.foldr_cons, List.foldr_nil,
    List.cons.injEq, and_true]
  omega

theorem u32le_roundtrip {a : List Nat} (hlen : a.length = 4)
    (hlt : ∀ b ∈ a, b < 256) : u32le (bytesToNat a) = a := by
  obtain ⟨b0, b1, b2, b3, rfl⟩ := exists_four a hlen
  exact u32le_bytesToNat (hlt b0 (by simp)) (hlt b1 (by simp))
    (hlt b2 (by simp)) (hlt b3 (by simp))

theorem i32le_roundtrip {a : List Nat} (hlen : a.length = 4)
    (hlt : ∀ b ∈ a, b < 256) : i32le (i32_of_bytes a) = a := by
  have hu : bytesToNat a < 2 ^ 32 := by
    obtain ⟨b0, b1, b2, b3, rfl⟩ := exists_four a hlen
    have := hlt b0 (by simp)
    have := hlt b1 (by simp)
    have := hlt b2 (by simp)
    have := hlt b3 (by simp)
    simp only [bytesToNat, List.foldr_cons, List.foldr_nil]
    omega
  rw [i32le, i32_of_bytes]
  set u := bytesToNat a with hudef
  by_cases hc : u < 2 ^ 31
  · rw [if_pos hc]
    have hkey : (((u : Int)) % 2 ^ 32).toNat = u := by omega
    rw [hkey]
    exact u32le_roundtrip hlen hlt
  · rw [if_neg hc]
    have hkey : ((((u : Int)) - 2 ^ 32) % 2 ^ 32).toNat = u := by omega
    rw [hkey]
    exact u32le_roundtrip hlen hlt

theorem point_bytes_lt (p : Point2D) : ∀ b ∈ point_bytes p, b < 256 := by
  intro b hb
  rw [point_bytes_spec] at hb
  simp only [spec_point_bytes, u32le, i32le, List.mem_append,
    List.mem_cons, List.not_mem_nil, or_false] at hb
  rcases hb with (h | h | h | h) | (h | h | h | h) | (h | h | h | h) <;>
    omega

/-- Decoding a 12-byte block and re-serializing it reproduces the block
exactly. -/
theorem point_bytes_roundtrip {bs : List Nat} (hlen : bs.length = 12)
    (hlt : ∀ b ∈ bs, b < 256) :
    point_bytes (point_of_bytes bs) = bs := by
  have ha : (bs.take 4).length = 4 := by
    rw [List.length_take]
    omega
  have hbl : ((bs.drop 4).take 4).length = 4 := by
    rw [List.length_take, List.length_drop]
    omega
  have hcl : (bs.drop 8).length = 4 := by
    rw [List.length_drop]
    omega
  have halt : ∀ b ∈ bs.take 4, b < 256 :=
    fun b hb => hlt b (List.take_subset _ _ hb)
  have hblt : ∀ b ∈ (bs.drop 4).take 4, b < 256 :=
    fun b hb => hlt b (List.drop_subset _ _ (List.take_subset _ _ hb))
  have hclt : ∀ b ∈ bs.drop 8, b < 256 :=
    fun b hb => hlt b (List.drop_subset _ _ hb)
  rw [point_bytes_spec]
  show u32le (bytesToNat (bs.take 4)) ++
      i32le (i32_of_bytes ((bs.drop 4).take 4)) ++
      i32le (i32_of_bytes (bs.drop 8)) = bs
  rw [u32le_roundtrip ha halt, i32le_roundtrip hbl hblt,
    i32le_roundtrip hcl hclt]
  rw [List.append_assoc]
  have h8 : (bs.drop 4).drop 4 = bs.drop 8 := by
    rw [List.drop_drop]
  rw [← h8, List.take_append_drop, List.take_append_drop]

/-- Overwriting byte `j` of a point's serialization with a byte value
and decoding gives a point whose serialization is exactly the original
with byte `j` overwritten. -/
theorem point_bytes_mutate (p : Point2D) (j v : Nat) (hv : v < 256) :
    point_bytes (mutate_point p j v) = (point_bytes p).set j v := by
  rw [mutate_point, point_bytes_roundtrip]
  · rw [List.length_set]
    exact point_bytes_length p
  · intro b hb
    rcases List.mem_or_eq_of_mem_set hb with h | h
    · exact point_bytes_lt p b h
    · omega

/-! ## Set / flatten helpers -/

theorem set_ne_of_getD {α : Type} {l : List α} {i : Nat} {a d : α}
    (hi : i < l.length) (hne : a ≠ l.getD i d) : l.set i a ≠ l := by
  intro he
  apply hne
  have h1 : (l.set i a).getD i d = a := by
    rw [List.getD_eq_getElem _ _ (by rw [List.length_set]; exact hi),
      List.getElem_set_self]
  rw [he] at h1
  rw [← h1]

theorem forall₂_length_refl {α : Type} (l : List (List α)) :
    List.Forall₂ (fun x y : List α => x.length = y.length) l l :=
  List.forall₂_same.mpr (fun _ _ => rfl)

theorem forall₂_length_set {α : Type} :
    ∀ {l : List (List α)} {i : Nat} {b : List α}, i < l.length →
      b.length = (l.getD i []).length →
      List.Forall₂ (fun x y : List α => x.length = y.length)
        (l.set i b) l := by
  intro l
  induction l with
  | nil => intro i b hi; simp at hi
  | cons x xs ih =>
      intro i b hi hlen
      match i with
      | 0 =>
          exact List.Forall₂.cons (by simpa using hlen)
            (forall₂_length_refl xs)
      | i + 1 =>
          exact List.Forall₂.cons rfl
            (ih (by simpa using hi) (by simpa using hlen))

theorem flatten_length_eq_of_forall₂ {α : Type}
    {a b : List (List α)}
    (h : List.Forall₂ (fun x y : List α => x.length = y.length) a b) :
    a.flatten.length = b.flatten.length := by
  induction h with
  | nil => rfl
  | cons hxy _ ih => simp [hxy, ih]

theorem flatten_ne_of_forall₂ {α : Type} {a b : List (List α)}
    (h : List.Forall₂ (fun x y : List α => x.length = y.length) a b)
    (hne : a ≠ b) : a.flatten ≠ b.flatten :=
  fun he => hne (flatten_inj_of_forall₂ h he)

/-! ## The verification result is independent of the statistics
collector -/

mutual
/-- The `VResult2D` the verifier returns depends only on the VO and the
query, not on the statistics collector passed in. -/
theorem verify_node_fst_indep (q : Rectangle) :
    ∀ (vo : VObject2D) (s s' : QueryStats2D),
      (verify_node q vo s).1 = (verify_node q vo s').1
  | .vleaf pts, s, s' => by
      rw [verify_node_vleaf, verify_node_vleaf]
  | .vpruned rect hash, s, s' => rfl
  | .vcontainer kids, s, s' => by
      have h := verify_children_fst_indep q kids EMPTY_RECT [] [] s s'
      show (⟨(verify_children q kids EMPTY_RECT [] [] s).1,
          sha256 (verify_children q kids EMPTY_RECT [] [] s).2.1,
          (verify_children q kids EMPTY_RECT [] [] s).2.2.1⟩ : VResult2D) =
        ⟨(verify_children q kids EMPTY_RECT [] [] s').1,
          sha256 (verify_children q kids EMPTY_RECT [] [] s').2.1,
          (verify_children q kids EMPTY_RECT [] [] s').2.2.1⟩
      rw [h.1, h.2.1, h.2.2]
/-- The non-statistics outcomes of the verifier's child loop depend only
on the VOs, the query and the accumulators. -/
theorem verify_children_fst_indep (q : Rectangle) :
    ∀ (vos : List VObject2D) (mbr : Rectangle) (buf : Buffer)
      (pts : List Point2D) (s s' : QueryStats2D),
      (verify_children q vos mbr buf pts s).1 =
          (verify_children q vos mbr buf pts s').1 ∧
        (verify_children q vos mbr buf pts s).2.1 =
          (verify_children q vos mbr buf pts s').2.1 ∧
        (verify_children q vos mbr buf pts s).2.2.1 =
          (verify_children q vos mbr buf pts s').2.2.1
  | [], mbr, buf, pts, s, s' => ⟨rfl, rfl, rfl⟩
  | vo :: vos, mbr, buf, pts, s, s' => by
      have hv := verify_node_fst_indep q vo s s'
      have hstep : ∀ t : QueryStats2D,
          verify_children q (vo :: vos) mbr buf pts t =
            verify_children q vos
              (enlarge mbr (verify_node q vo t).1.rect)
              (put_entry buf (verify_node q vo t).1.rect
                (verify_node q vo t).1.hash)
              (pts ++ (verify_node q vo t).1.points)
              (verify_node q vo t).2 := by
        intro t
        rw [verify_children]
      rw [hstep s, hstep s', hv]
      exact verify_children_fst_indep q vos _ _ _
        (verify_node q vo s).2 (verify_node q vo s').2
end

/-! ## What each VO variant hashes to -/

theorem verify_node_eq_vres (q : Rectangle) (vo : VObject2D)
    (s : QueryStats2D) : (verify_node q vo s).1 = vres q vo :=
  verify_node_fst_indep q vo s initStats

theorem vres_vleaf_hash (q : Rectangle) (pts : List Point2D) :
    (vres q (.vleaf pts)).hash = (pts.map point_bytes).flatten := by
  rw [vres, verify_node_vleaf]
  show sha256 (pts.foldl put_point2d []) = _
  rw [sha256, foldl_put_point2d, List.nil_append]

theorem verify_children_buf_char (q : Rectangle) :
    ∀ (vos : List VObject2D) (mbr : Rectangle) (buf : Buffer)
      (pts : List Point2D) (s : QueryStats2D),
      (verify_children q vos mbr buf pts s).2.1 =
        buf ++ (vos.map
          (fun v => entry_bytes (vres q v).rect (vres q v).hash)).flatten
  | [], mbr, buf, pts, s => by simp [verify_children]
  | vo :: vos, mbr, buf, pts, s => by
      show (verify_children q vos (enlarge mbr (verify_node q vo s).1.rect)
          (put_entry buf (verify_node q vo s).1.rect
            (verify_node q vo s).1.hash)
          (pts ++ (verify_node q vo s).1.points)
          (verify_node q vo s).2).2.1 = _
      rw [verify_children_buf_char q vos _ _ _ (verify_node q vo s).2,
        verify_node_eq_vres, put_entry_eq]
      simp [List.append_assoc]

theorem vres_vcontainer_hash (q : Rectangle) (kids : List VObject2D) :
    (vres q (.vcontainer kids)).hash =
      (kids.map
        (fun v => entry_bytes (vres q v).rect (vres q v).hash)).flatten := by
  rw [vres]
  show sha256 (verify_children q kids EMPTY_RECT [] [] initStats).2.1 = _
  rw [sha256, verify_children_buf_char, List.nil_append]

theorem getD_map_of_lt {α β : Type} (f : α → β) {l : List α} {i : Nat}
    (hi : i < l.length) (d : α) (d' : β) :
    (l.map f).getD i d' = f (l.getD i d) := by
  rw [List.getD_eq_getElem _ _ (by simpa using hi), List.getElem_map,
    List.getD_eq_getElem _ _ hi]

/-- The tamper-detection core: overwriting byte `j` of point `i` of the
leaf reached by `path` changes the digest the verifier recomputes, and
never changes its length. -/
theorem tamper_core :
    ∀ (path : List Nat) (vo : VObject2D) (pts : List Point2D)
      (i j v : Nat) (q : Rectangle),
      leaf_at path vo = some pts → i < pts.length → j < 12 → v < 256 →
      v ≠ (point_bytes (pts.getD i default)).getD j 0 →
      (vres q (mutate_vo path vo i j v)).hash ≠ (vres q vo).hash ∧
        ((vres q (mutate_vo path vo i j v)).hash).length =
          ((vres q vo).hash).length := by
  intro path
  induction path with
  | nil =>
      intro vo pts i j v q hleaf hi hj hv hne
      match vo with
      | .vpruned r h => simp [leaf_at] at hleaf
      | .vcontainer kids => simp [leaf_at] at hleaf
      | .vleaf pts0 =>
          have hpts : pts0 = pts := by simpa [leaf_at] using hleaf
          rw [← hpts] at hi hne
          have hmv : mutate_vo [] (.vleaf pts0) i j v =
              .vleaf (pts0.set i (mutate_point (pts0.getD i default) j v)) :=
            rfl
          rw [hmv, vres_vleaf_hash, vres_vleaf_hash]
          have hmap : (pts0.set i
                (mutate_point (pts0.getD i default) j v)).map point_bytes =
              (pts0.map point_bytes).set i
                ((point_bytes (pts0.getD i default)).set j v) := by
            rw [List.map_set, point_bytes_mutate _ _ _ hv]
          rw [hmap]
          have hblen : i < (pts0.map point_bytes).length := by
            simpa using hi
          have hgd : (pts0.map point_bytes).getD i [] =
              point_bytes (pts0.getD i default) := by
            rw [getD_map_of_lt point_bytes hi default]
          have hbne : (point_bytes (pts0.getD i default)).set j v ≠
              (pts0.map point_bytes).getD i [] := by
            rw [hgd]
            exact set_ne_of_getD
              (by rw [point_bytes_length]; exact hj) hne
          have hsetne := set_ne_of_getD hblen hbne
          have hf2 : List.Forall₂
              (fun x y : List Nat => x.length = y.length)
              ((pts0.map point_bytes).set i
                ((point_bytes (pts0.getD i default)).set j v))
              (pts0.map point_bytes) :=
            forall₂_length_set hblen (by rw [List.length_set, hgd])
          exact ⟨flatten_ne_of_forall₂ hf2 hsetne,
            flatten_length_eq_of_forall₂ hf2⟩
  | cons k path ih =>
      intro vo pts i j v q hleaf hi hj hv hne
      match vo with
      | .vleaf pts0 => simp [leaf_at] at hleaf
      | .vpruned r h => simp [leaf_at] at hleaf
      | .vcontainer kids =>
          cases hk : kids[k]? with
          | none => simp [leaf_at, hk] at hleaf
          | some c =>
              have hleaf' : leaf_at path c = some pts := by
                simpa [leaf_at, hk] using hleaf
              have hklen : k < kids.length := by
                by_contra hcon
                push_neg at hcon
                rw [List.getElem?_eq_none (by omega)] at hk
                exact Option.noConfusion hk
              have hgetk : kids[k] = c := by
                have hx := hk
                rw [List.getElem?_eq_getElem hklen] at hx
                exact Option.some.inj hx
              have hgdc : kids.getD k default = c := by
                rw [List.getD_eq_getElem _ _ hklen, hgetk]
              have hmv : mutate_vo (k :: path) (.vcontainer kids) i j v =
                  .vcontainer (kids.set k (mutate_vo path c i j v)) := by
                rw [mutate_vo, hgdc]
              obtain ⟨ihne, ihlen⟩ := ih c pts i j v q hleaf' hi hj hv hne
              rw [hmv, vres_vcontainer_hash, vres_vcontainer_hash]
              rw [List.map_set]
              have hklen' : k < (kids.map
                  (fun v => entry_bytes (vres q v).rect
                    (vres q v).hash)).length := by
                simpa using hklen
              have hgd : (kids.map
                  (fun v => entry_bytes (vres q v).rect
                    (vres q v).hash)).getD k [] =
                  entry_bytes (vres q c).rect (vres q c).hash := by
                rw [getD_map_of_lt _ hklen default, hgdc]
              have hene : entry_bytes
                  (vres q (mutate_vo path c i j v)).rect
                  (vres q (mutate_vo path c i j v)).hash ≠
                  entry_bytes (vres q c).rect (vres q c).hash :=
                fun he => ihne (entry_bytes_inj he)
              have hbne : entry_bytes
                  (vres q (mutate_vo path c i j v)).rect
                  (vres q (mutate_vo path c i j v)).hash ≠
                  (kids.map (fun v => entry_bytes (vres q v).rect
                    (vres q v).hash)).getD k [] := by
                rw [hgd]
                exact hene
              have hsetne := set_ne_of_getD hklen' hbne
              have hf2 : List.Forall₂
                  (fun x y : List Nat => x.length = y.length)
                  ((kids.map (fun w => entry_bytes (vres q w).rect
                      (vres q w).hash)).set k
                    (entry_bytes (vres q (mutate_vo path c i j v)).rect
                      (vres q (mutate_vo path c i j v)).hash))
                  (kids.map (fun w => entry_bytes (vres q w).rect
                    (vres q w).hash)) :=
                forall₂_length_set hklen'
                  (by rw [hgd]; simp only [entry_bytes_length]; omega)
              exact ⟨flatten_ne_of_forall₂ hf2 hsetne,
                flatten_length_eq_of_forall₂ hf2⟩

/-- C3.  Overwriting any single byte (`j < 12`) of any point (`i`) of
any `VO_Leaf` in a verification object — reached by any container path —
with a different byte value changes the root digest recomputed by
`verify_2d`, whatever the statistics collectors. -/
theorem claim_C3_tamper_detection (path : List Nat) (vo : VObject2D)
    (pts : List Point2D) (i j v : Nat) (q : Rectangle)
    (s₁ s₂ : QueryStats2D)
    (hleaf : leaf_at path vo = some pts) (hi : i < pts.length)
    (hj : j < 12) (hv : v < 256)
    (hne : v ≠ (point_bytes (pts.getD i default)).getD j 0) :
    ∃ (res res' : VResult2D) (t₁ t₂ : QueryStats2D),
      verify_2d (some (mutate_vo path vo i j v)) q s₁ = (some res, t₁) ∧
      verify_2d (some vo) q s₂ = (some res', t₂) ∧
      res.hash ≠ res'.hash := by
  refine ⟨_, _, _, _, rfl, rfl, ?_⟩
  show (verify_node q (mutate_vo path vo i j v) s₁).1.hash ≠
    (verify_node q vo s₂).1.hash
  rw [verify_node_eq_vres, verify_node_eq_vres]
  exact (tamper_core path vo pts i j v q hleaf hi hj hv hne).1

/-- Witness for C3: flipping the low byte of the single point of a
one-point leaf VO changes the recomputed digest. -/
theorem claim_C3_witness :
    ∃ (res res' : VResult2D) (t₁ t₂ : QueryStats2D),
      verify_2d (some (mutate_vo [] (.vleaf [⟨0, ⟨0, 0⟩⟩]) 0 0 1))
          sampleQuery initStats = (some res, t₁) ∧
      verify_2d (some (.vleaf [⟨0, ⟨0, 0⟩⟩])) sampleQuery initStats =
        (some res', t₂) ∧
      res.hash ≠ res'.hash :=
  claim_C3_tamper_detection [] (.vleaf [⟨0, ⟨0, 0⟩⟩]) [⟨0, ⟨0, 0⟩⟩]
    0 0 1 sampleQuery initStats initStats (by rfl) (by decide)
    (by decide) (by decide) (by decide)

end CSQV
